import Mathlib

/-!
# Verification of the `observable` event registry

Shallow embedding of `src/observable/core.py` (class `Observable`).

The registry state `Observable._events` is a `defaultdict(str, list)` mapping
event names to ordered lists of handlers.  We model it as an association list
`Events := List (String × List Handler)` with first-match lookup; since Python
dict keys are unique, the first-match semantics coincides with dict semantics
on every state reachable from the empty registry.

Handlers are opaque callables compared by identity; we model identity with a
natural-number tag.  `asyncio.iscoroutinefunction(callback)` is a property of
the callable itself, modelled by the `isAsync` field.
-/

set_option autoImplicit false

namespace Observable

/-- An opaque Python callable: identity tag plus whether
`asyncio.iscoroutinefunction` recognizes it as asynchronous-capable. -/
structure Handler where
  hid : Nat
  isAsync : Bool
deriving DecidableEq

/-- The error values the module can raise: `EventNotFound(event)`,
`HandlerNotFound(event, handler)` (both defined in `core.py`), and the
built-in `SyntaxError(msg)` raised by `Observable.trigger` when keyword
arguments meet a coroutine handler (modelled as `usageError`). -/
inductive ObsError where
  | eventNotFound (event : String)
  | handlerNotFound (event : String) (handler : Handler)
  | usageError (msg : String)
deriving DecidableEq

/-- The registry state `self._events`: event name to ordered handler list. -/
abbrev Events := List (String × List Handler)

/-- `self._events.get(event, [])`: handler list of an event, `[]` if absent. -/
def getD : Events → String → List Handler
  | [], _ => []
  | p :: t, e => if p.1 = e then p.2 else getD t e

/-- `event in self._events`: key membership (true even for an empty list). -/
def containsEvent : Events → String → Bool
  | [], _ => false
  | p :: t, e => p.1 = e || containsEvent t e

/-- `self._events[event] = l`: replace the event's list (keeping the key's
position), or append a fresh key, as a Python dict assignment does. -/
def setEvent : Events → String → List Handler → Events
  | [], e, l => [(e, l)]
  | p :: t, e, l => if p.1 = e then (e, l) :: t else p :: setEvent t e l

/-- `self._events.pop(event)`: drop the key entirely. -/
def popEvent (s : Events) (e : String) : Events :=
  s.filter (fun p => decide (p.1 ≠ e))

/-- The loop `while callback in self._events[event]:
self._events[event].remove(callback)`: removes every occurrence of one
handler from one event's list (the key itself stays, even when emptied). -/
def removeAll (s : Events) (e : String) (x : Handler) : Events :=
  setEvent s e ((getD s e).filter (fun y => decide (y ≠ x)))

/-- `Observable.on(event, *handlers)`.  With handlers supplied, the inner
`_on_wrapper` runs `self._events[event].extend(handlers)` (the defaultdict
creates the key on demand).  With no handlers, `on` only returns the
decorator closure and the registry is untouched. -/
def onEvent (s : Events) (e : String) (hs : List Handler) : Events :=
  if hs.isEmpty then s else setEvent s e (getD s e ++ hs)

/-- The `for callback in handlers:` loop of `Observable.off`: each handler is
checked (`raise HandlerNotFound`) then fully removed, one at a time; a raise
keeps the removals already performed (the state component of the result). -/
def offLoop : Events → String → List Handler → Events × Option ObsError
  | s, _, [] => (s, none)
  | s, e, x :: t =>
    if x ∈ getD s e then offLoop (removeAll s e x) e t
    else (s, some (ObsError.handlerNotFound e x))

/-- `Observable.off(event=None, *handlers)`.  `if not event:` clears the whole
registry (true both for `None` and for the empty string); an absent key raises
`EventNotFound`; no handlers pops the key; otherwise the handler loop runs.
The returned pair is (resulting state, raised error if any). -/
def off (s : Events) (event : Option String) (handlers : List Handler) :
    Events × Option ObsError :=
  match event with
  | none => ([], none)
  | some e =>
    if e = "" then ([], none)
    else if containsEvent s e = false then (s, some (ObsError.eventNotFound e))
    else if handlers.isEmpty then (popEvent s e, none)
    else offLoop s e handlers

/-- `Observable.is_registered(event, handler)`:
`handler in self._events.get(event, [])`. -/
def is_registered (s : Events) (e : String) (h : Handler) : Bool :=
  decide (h ∈ getD s e)

/-- `Observable.get_handlers(event)`: a copy of the event's current list. -/
def get_handlers (s : Events) (e : String) : List Handler :=
  getD s e

/-- The registration performed by `Observable.once(event, *handlers)`: a fresh
closure `_wrapper` (here the opaque value `w`) is registered on the event via
`self.on(event, _once_wrapper(*handlers))`.  The wrapper's own behaviour is
modelled in the dispatch interpreter below (`HKind.onceW`). -/
def once (s : Events) (e : String) (w : Handler) : Events :=
  onEvent s e [w]

/-!
## Dispatch with explicit arguments (`trigger`, `trigger_async`)

For the claims about argument forwarding and dispatch order we record, for
each callback the loops reach, the exact call made on it.  Python values
passed as arguments are opaque except that `trigger` builds the tuple
`args`, so the value domain only needs bases and tuples.
-/

/-- A Python value as far as argument passing is concerned: an opaque base
value or a tuple of values (the `args` tuple is such a tuple). -/
inductive Value where
  | base (n : Nat)
  | tuple (vs : List Value)

/-- How the synchronous `trigger` runs a callback: plain call in the loop, or
scheduled on the running loop via `asyncio.create_task(...run_in_executor...)`
without blocking the caller. -/
inductive CallMode where
  | immediate
  | scheduled
deriving DecidableEq

/-- One call performed on a callback: the callback, the positional arguments
it receives, the keyword arguments it receives, and the call mode. -/
structure Invocation where
  handler : Handler
  positional : List Value
  keyword : List (String × Value)
  mode : CallMode

/-- The `for callback in callbacks:` loop of `Observable.trigger`.  A
coroutine callback with keyword arguments present raises `SyntaxError`;
a coroutine callback otherwise is scheduled through
`run_in_executor(None, callback, args)`, which calls `callback(args)` —
one positional argument holding the whole tuple; an ordinary callback is
called as `callback(*args, **kw)`.  Returns the calls made, and the raised
error if any (calls before the raise have happened). -/
def triggerLoop (args : List Value) (kw : List (String × Value)) :
    List Handler → List Invocation × Option ObsError
  | [] => ([], none)
  | c :: rest =>
    if c.isAsync then
      if 0 < kw.length then
        ([], some (ObsError.usageError
          "named args are not supported by asyncio in synchronous mode"))
      else
        let r := triggerLoop args kw rest
        (Invocation.mk c [Value.tuple args] [] CallMode.scheduled :: r.1, r.2)
    else
      let r := triggerLoop args kw rest
      (Invocation.mk c args kw CallMode.immediate :: r.1, r.2)

/-- `Observable.trigger(event, *args, **kw)`: snapshot
`callbacks = list(self._events.get(event, []))`, return `False` on an empty
snapshot, otherwise run the loop; on normal completion return `True`.
Result: (calls made, `Except` of the raised error or the return value). -/
def trigger (s : Events) (e : String) (args : List Value)
    (kw : List (String × Value)) : List Invocation × Except ObsError Bool :=
  let callbacks := getD s e
  if callbacks.isEmpty then ([], Except.ok false)
  else
    match triggerLoop args kw callbacks with
    | (tr, none) => (tr, Except.ok true)
    | (tr, some err) => (tr, Except.error err)

/-- One call performed by `trigger_async`: `awaited` is true when the
callback is a coroutine function and the loop `await`s it in place (its
completion precedes the next list entry); otherwise it is a plain
synchronous call in the same position. -/
structure AInvocation where
  handler : Handler
  awaited : Bool
  positional : List Value
  keyword : List (String × Value)

/-- The `for callback in callbacks:` loop of `Observable.trigger_async`:
every callback receives `*args, **kw`; coroutine callbacks are awaited in
place, the rest called synchronously, strictly in list order. -/
def triggerAsyncLoop (args : List Value) (kw : List (String × Value)) :
    List Handler → List AInvocation
  | [] => []
  | c :: rest =>
    AInvocation.mk c c.isAsync args kw :: triggerAsyncLoop args kw rest

/-- `Observable.trigger_async(event, *args, **kw)`: same snapshot and empty
check as `trigger`, then the sequential await-in-place loop; returns `True`
iff the snapshot was non-empty. -/
def trigger_async (s : Events) (e : String) (args : List Value)
    (kw : List (String × Value)) : List AInvocation × Bool :=
  let callbacks := getD s e
  if callbacks.isEmpty then ([], false)
  else (triggerAsyncLoop args kw callbacks, true)

/-!
## Dispatch with mutating handlers

The remaining claims are about handlers that call back into the registry
(`on` / `off` / `trigger`) while an event is being dispatched.  A handler's
body is a straight-line list of registry calls (`Cmd`); the closure
`_wrapper` made by `Observable.once` has the fixed body
`self.off(event, _wrapper); handler(*args)` and is a separate handler kind.
The map `env : Handler → HKind` plays the role of the Python callable table.

Dispatch is a worklist interpreter: `Observable.trigger` copies the handler
list (`callbacks = list(self._events.get(event, []))`) and then calls each
callback in order, so `trigC` pushes one invocation item per snapshot entry
in front of the remaining work; an invocation item expands to the handler's
body.  This depth-first order is exactly Python's call order for
`trigger_async` and for `trigger` over non-coroutine handlers (the dispatch
the reentrancy claims are about).  A raised `ObsError` propagates and aborts
everything below the current top-level call, as an uncaught Python exception
does.  Fuel bounds the recursion depth; running out of fuel is reported as
its own outcome, never as normal completion.

The interpreter log records every handler invocation, in the order the
handler bodies begin executing.
-/

/-- One registry call in a handler body (or from the host program):
`self.on(e, *hs)`, `self.off(ev, *hs)`, or `self.trigger(e, ...)`. -/
inductive Cmd where
  | onC (e : String) (hs : List Handler)
  | offC (ev : Option String) (hs : List Handler)
  | trigC (e : String)
deriving DecidableEq

/-- What kind of callable a handler is: a plain handler whose body performs
the given registry calls, or a `_wrapper` closure produced by
`Observable.once(e, h)` for the wrapped handlers, whose body is
`self.off(e, _wrapper)` followed by calling each wrapped handler. -/
inductive HKind where
  | plain (prog : List Cmd)
  | onceW (e : String) (wrapped : List Handler)
deriving DecidableEq

/-- Pending work for the interpreter: a registry call to perform, or a
handler invocation about to begin. -/
inductive WorkItem where
  | cmd (c : Cmd)
  | inv (h : Handler)
deriving DecidableEq

/-- How a run ended: normal completion, a raised `ObsError`, or fuel
exhaustion (the interpreter's recursion-depth bound). -/
inductive Outcome where
  | ok
  | errored (e : ObsError)
  | fuelOut
deriving DecidableEq

/-- Interpreter state: the registry plus the invocation log. -/
structure St where
  events : Events
  log : List Handler
deriving DecidableEq

/-- Result of a run: final state, outcome, and remaining fuel. -/
structure Res where
  st : St
  out : Outcome
  fuel : Nat
deriving DecidableEq

/-- The worklist interpreter (see the section comment above). -/
def run (env : Handler → HKind) : Nat → List WorkItem → St → Res
  | f, [], st => Res.mk st Outcome.ok f
  | 0, _ :: _, st => Res.mk st Outcome.fuelOut 0
  | Nat.succ f, WorkItem.cmd (Cmd.onC e hs) :: rest, st =>
      run env f rest (St.mk (onEvent st.events e hs) st.log)
  | Nat.succ f, WorkItem.cmd (Cmd.offC ev hs) :: rest, st =>
      match off st.events ev hs with
      | (s', none) => run env f rest (St.mk s' st.log)
      | (s', some er) => Res.mk (St.mk s' st.log) (Outcome.errored er) f
  | Nat.succ f, WorkItem.cmd (Cmd.trigC e) :: rest, st =>
      run env f ((getD st.events e).map WorkItem.inv ++ rest) st
  | Nat.succ f, WorkItem.inv g :: rest, st =>
      match env g with
      | HKind.plain prog =>
          run env f (prog.map WorkItem.cmd ++ rest)
            (St.mk st.events (st.log ++ [g]))
      | HKind.onceW e ws =>
          match off st.events (some e) [g] with
          | (s', none) =>
              run env f (ws.map WorkItem.inv ++ rest)
                (St.mk s' (st.log ++ [g]))
          | (s', some er) =>
              Res.mk (St.mk s' (st.log ++ [g])) (Outcome.errored er) f

/-- A host program: a sequence of separate top-level registry calls.  Each
call runs on its own; an error raised by one call surfaces to the host (who
may catch it) and does not prevent the following calls. -/
def runTop (env : Handler → HKind) (fuel : Nat) (cmds : List Cmd)
    (st : St) : St :=
  cmds.foldl (fun s c => (run env fuel [WorkItem.cmd c] s).st) st

/-- A single trigger call on event `e`, as one interpreter run. -/
def trigOnce (env : Handler → HKind) (fuel : Nat) (e : String) (st : St) :
    Res :=
  run env fuel [WorkItem.cmd (Cmd.trigC e)] st

/-- A registry call that is not a nested trigger. -/
def cmdTrigFree : Cmd → Bool
  | Cmd.trigC _ => false
  | _ => true

/-- A handler body that performs no nested trigger. -/
def trigFree (l : List Cmd) : Bool :=
  l.all cmdTrigFree

/-- A plain (non-wrapper) handler whose body performs no nested trigger —
it may mutate the registry arbitrarily with `on` / `off`. -/
def plainTF (env : Handler → HKind) (g : Handler) : Bool :=
  match env g with
  | HKind.plain prog => trigFree prog
  | HKind.onceW _ _ => false

/-- Occurrences of a handler in a handler list. -/
def hcount (x : Handler) : List Handler → Nat
  | [] => 0
  | y :: t => (if y = x then 1 else 0) + hcount x t

/-- Total occurrences of a handler anywhere in the registry. -/
def occ : Events → Handler → Nat
  | [], _ => 0
  | p :: t, x => hcount x p.2 + occ t x

/-- Pending invocation items of a given handler in a worklist. -/
def invCount (x : Handler) : List WorkItem → Nat
  | [] => 0
  | WorkItem.inv g :: t => (if g = x then 1 else 0) + invCount x t
  | WorkItem.cmd _ :: t => invCount x t

/-- A registry call that never (re-)registers `h` or `w`. -/
def cmdAvoids (h w : Handler) : Cmd → Bool
  | Cmd.onC _ hs => !(decide (h ∈ hs) || decide (w ∈ hs))
  | _ => true

/-- A handler `g` whose behaviour never re-registers `h` or `w` and (unless
`g` is the once wrapper `w` itself) never wraps `h`. -/
def kindSafe (h w g : Handler) : HKind → Bool
  | HKind.plain prog => prog.all (cmdAvoids h w)
  | HKind.onceW _ ws => decide (g = w) || !(decide (h ∈ ws))

/-- Every handler's behaviour is safe for `h` and `w` (no handler
re-registers the once wrapper `w` or the wrapped handler `h`, and no other
wrapper wraps `h`). -/
def envSafe (env : Handler → HKind) (h w : Handler) : Prop :=
  ∀ g, kindSafe h w g (env g) = true

/-- Every pending registry call in the worklist avoids `h` and `w`. -/
def wsSafe (h w : Handler) (ws : List WorkItem) : Bool :=
  ws.all (fun item =>
    match item with
    | WorkItem.cmd c => cmdAvoids h w c
    | WorkItem.inv _ => true)

/-- A top-level command that is a trigger call. -/
def cmdIsTrig : Cmd → Bool
  | Cmd.trigC _ => true
  | _ => false

/-- Concrete wrapped handler for the C5 scenarios. -/
def hC5 : Handler := Handler.mk 1 false

/-- Concrete once wrapper for the C5 scenarios. -/
def wC5 : Handler := Handler.mk 0 false

/-- Environment of the canonical C5 scenario: `wC5` is the wrapper made by
`once("e", hC5)`, every other handler (including `hC5`) does nothing. -/
def envC5 : Handler → HKind :=
  fun g => if g = wC5 then HKind.onceW "e" [hC5] else HKind.plain []

/-- Environment of the reentrant C5 scenario: as `envC5` except that the
wrapped handler `hC5` itself re-triggers `"e"` from inside its own body. -/
def envC5r : Handler → HKind :=
  fun g =>
    if g = wC5 then HKind.onceW "e" [hC5]
    else if g = hC5 then HKind.plain [Cmd.trigC "e"]
    else HKind.plain []

/-- Mutating handler of the C6 witness scenario: it registers a fresh
handler on the event it is itself handling. -/
def envC6 : Handler → HKind :=
  fun g =>
    if g.hid = 2 then HKind.plain [Cmd.onC "e" [Handler.mk 3 false]]
    else HKind.plain []

/-- Start state of the C6 witness scenario. -/
def stC6 : St :=
  St.mk [("e", [Handler.mk 2 false])] []

/-- The non-empty-sequence registry invariant from the spec: every key
present maps to a non-empty handler list. -/
def nonEmptyInv (s : Events) : Bool :=
  s.all (fun p => !p.2.isEmpty)

/-- The handlers a prefix of the `off` loop removes, applied in order. -/
def removeSeq (s : Events) (e : String) (pre : List Handler) : Events :=
  pre.foldl (fun acc x => removeAll acc e x) s

/-- The `off` loop finds (and removes) each handler of `pre` in turn. -/
def allFound : Events → String → List Handler → Bool
  | _, _, [] => true
  | s, e, x :: t => decide (x ∈ getD s e) && allFound (removeAll s e x) e t

/-!
## Basic facts about the registry operations
-/

theorem getD_setEvent_self (s : Events) (e : String) (l : List Handler) :
    getD (setEvent s e l) e = l := by
  induction s with
  | nil => simp [setEvent, getD]
  | cons p t ih =>
    by_cases hp : p.1 = e
    · simp [setEvent, hp, getD]
    · simp [setEvent, hp, getD, ih]

theorem mem_getD_contains {x : Handler} {s : Events} {e : String}
    (h : x ∈ getD s e) : containsEvent s e = true := by
  induction s with
  | nil => simp [getD] at h
  | cons p t ih =>
    by_cases hp : p.1 = e
    · simp [containsEvent, hp]
    · rw [getD, if_neg hp] at h
      simp [containsEvent, hp, ih h]

theorem containsEvent_popEvent (s : Events) (e : String) :
    containsEvent (popEvent s e) e = false := by
  induction s with
  | nil => rfl
  | cons p t ih =>
    by_cases hp : p.1 = e
    · simpa [popEvent, List.filter, hp] using ih
    · simpa [popEvent, List.filter, hp, containsEvent] using ih

theorem nonEmptyInv_setEvent {s : Events} {e : String} {l : List Handler}
    (hs : nonEmptyInv s = true) (hl : l ≠ []) :
    nonEmptyInv (setEvent s e l) = true := by
  induction s with
  | nil => simpa [setEvent, nonEmptyInv] using hl
  | cons p t ih =>
    rw [nonEmptyInv, List.all_cons] at hs
    obtain ⟨h1, h2⟩ := Bool.and_eq_true_iff.mp hs
    by_cases hp : p.1 = e
    · rw [setEvent, if_pos hp, nonEmptyInv, List.all_cons]
      refine Bool.and_eq_true_iff.mpr ⟨by simpa using hl, h2⟩
    · rw [setEvent, if_neg hp, nonEmptyInv, List.all_cons]
      exact Bool.and_eq_true_iff.mpr ⟨h1, ih h2⟩

theorem nonEmptyInv_popEvent {s : Events} (e : String)
    (hs : nonEmptyInv s = true) : nonEmptyInv (popEvent s e) = true := by
  induction s with
  | nil => rfl
  | cons p t ih =>
    rw [nonEmptyInv, List.all_cons] at hs
    obtain ⟨h1, h2⟩ := Bool.and_eq_true_iff.mp hs
    by_cases hp : p.1 = e
    · simpa [popEvent, List.filter, hp] using ih h2
    · rw [popEvent, List.filter] at *
      simpa [hp, nonEmptyInv, List.all_cons, h1] using ih h2

/-!
## C10 — `off` with the empty string clears everything
-/

/-- Claim C10: for every registry state, `off("")` behaves exactly like
`off()` with no event: both clear the entire registry and never raise,
because `if not event:` is true for the empty string as well as for `None`.
-/
theorem c10_theorem (s : Events) (hs : List Handler) :
    off s (some "") hs = ([], none) ∧ off s none hs = ([], none) := by
  exact ⟨by simp [off], rfl⟩

/-!
## C3 — `off(event)` with no handlers
-/

/-- Counterexample to claim C3: starting from an empty registry, register a
handler on `"e"` and then unregister that handler.  Now `"e"` has no
registered handlers (`get_handlers` is empty), yet `off("e")` does not raise
`EventNotFound` — it succeeds, because the emptied key is still present.  So
"raises iff the event has no registered handlers at the time of the call" is
false on the code. -/
theorem c3_counterexample :
    get_handlers
        (off (onEvent [] "e" [Handler.mk 0 false]) (some "e")
          [Handler.mk 0 false]).1 "e" = []
    ∧ (off
        (off (onEvent [] "e" [Handler.mk 0 false]) (some "e")
          [Handler.mk 0 false]).1 (some "e") []).2 = none := by
  exact ⟨rfl, rfl⟩

/-- Claim C3 as amended: for a non-empty event name `e`, `off(e)` with no
handlers raises `EventNotFound e` iff `e` is not present as a dict key (an
event whose handlers were all removed handler-wise keeps its key and does
not raise); when the key is present, the whole key is popped and the
registry no longer contains `e`. -/
theorem c3_theorem (s : Events) (e : String) (he : e ≠ "") :
    ((off s (some e) []).2 = some (ObsError.eventNotFound e)
      ↔ containsEvent s e = false)
    ∧ (containsEvent s e = true →
        off s (some e) [] = (popEvent s e, none)
        ∧ containsEvent (popEvent s e) e = false) := by
  constructor
  · by_cases hc : containsEvent s e = false
    · simp [off, he, hc]
    · simp at hc
      simp [off, he, hc]
  · intro hc
    simp [off, he, hc, containsEvent_popEvent]

/-- Witness for C3's amended theorem at a concrete input. -/
theorem c3_witness :
    (("x" : String) ≠ "") ∧
    (((off [] (some "x") []).2 = some (ObsError.eventNotFound "x")
      ↔ containsEvent [] "x" = false)
    ∧ (containsEvent [] "x" = true →
        off [] (some "x") [] = (popEvent [] "x", none)
        ∧ containsEvent (popEvent [] "x") "x" = false)) :=
  ⟨by decide, c3_theorem [] "x" (by decide)⟩

/-!
## C9 — `off(event, handler)` removes every occurrence
-/

/-- Claim C9: when `x` occurs (possibly several times) in event `e`'s list,
`off(e, x)` succeeds and removes every occurrence, so `is_registered(e, x)`
is false immediately afterwards. -/
theorem c9_theorem (s : Events) (e : String) (x : Handler)
    (hx : x ∈ getD s e) :
    (off s (some e) [x]).2 = none
    ∧ is_registered (off s (some e) [x]).1 e x = false := by
  by_cases he : e = ""
  · subst he
    simp [off, is_registered, getD]
  · have hc := mem_getD_contains hx
    simp [off, he, hc, offLoop, hx, is_registered, removeAll,
      getD_setEvent_self, List.mem_filter]

/-- Witness for C9 at a concrete input where the handler occurs twice. -/
theorem c9_witness :
    (Handler.mk 1 false ∈
      getD [("e", [Handler.mk 1 false, Handler.mk 2 false,
        Handler.mk 1 false])] "e")
    ∧ ((off [("e", [Handler.mk 1 false, Handler.mk 2 false,
          Handler.mk 1 false])] (some "e") [Handler.mk 1 false]).2 = none
      ∧ is_registered
          (off [("e", [Handler.mk 1 false, Handler.mk 2 false,
            Handler.mk 1 false])] (some "e") [Handler.mk 1 false]).1 "e"
          (Handler.mk 1 false) = false) :=
  ⟨by decide, c9_theorem _ "e" _ (by decide)⟩

/-!
## C2 — the non-empty-value invariant
-/

/-- Counterexample to claim C2: from the empty registry, `on("e", h)` then
`off("e", h)` completes without error, yet leaves key `"e"` present and
mapped to the empty list — the handler-removal loop of `off` never prunes
the key, so the claimed invariant fails after this completed mutation. -/
theorem c2_counterexample :
    off (onEvent [] "e" [Handler.mk 0 false]) (some "e") [Handler.mk 0 false]
      = ([("e", [])], none)
    ∧ containsEvent [("e", [])] "e" = true
    ∧ nonEmptyInv [("e", [])] = false := by
  exact ⟨rfl, rfl, rfl⟩

/-- Claim C2 as amended: `on`, `once` and `off` *without* handlers (key pop
or full clear) preserve the non-empty-value invariant, but `off` *with*
handlers (and hence the once wrapper's self-removal, which calls it) can
leave the emptied key behind; the key is only ever removed by the
no-handler forms. -/
theorem c2_theorem (s : Events) (e : String) (hs : List Handler)
    (w : Handler) (ev : Option String) (hinv : nonEmptyInv s = true) :
    nonEmptyInv (onEvent s e hs) = true
    ∧ nonEmptyInv (once s e w) = true
    ∧ nonEmptyInv ((off s ev []).1) = true := by
  refine ⟨?_, ?_, ?_⟩
  · by_cases h : hs.isEmpty
    · simpa [onEvent, h] using hinv
    · have hne : getD s e ++ hs ≠ [] := by
        intro hcontra
        rw [List.append_eq_nil] at hcontra
        rw [hcontra.2] at h
        exact h rfl
      rw [onEvent, if_neg h]
      exact nonEmptyInv_setEvent hinv hne
  · exact nonEmptyInv_setEvent hinv (by simp)
  · match ev with
    | none => rfl
    | some e' =>
      by_cases he : e' = ""
      · simp [off, he, nonEmptyInv]
      · by_cases hc : containsEvent s e' = false
        · simpa [off, he, hc] using hinv
        · simp at hc
          simp [off, he, hc]
          exact nonEmptyInv_popEvent e' hinv

/-- Witness for C2's amended theorem at a concrete input. -/
theorem c2_witness :
    nonEmptyInv [("a", [Handler.mk 0 false])] = true
    ∧ (nonEmptyInv (onEvent [("a", [Handler.mk 0 false])] "e"
          [Handler.mk 1 false]) = true
      ∧ nonEmptyInv (once [("a", [Handler.mk 0 false])] "e"
          (Handler.mk 2 false)) = true
      ∧ nonEmptyInv ((off [("a", [Handler.mk 0 false])] (some "a") []).1)
          = true) :=
  ⟨by decide, c2_theorem _ "e" [Handler.mk 1 false] (Handler.mk 2 false)
    (some "a") (by decide)⟩

/-!
## C7 — `off(event, h1, ..., hn)` applies removals left to right, no rollback
-/

theorem offLoop_partial (e : String) :
    ∀ (pre : List Handler) (s : Events) (x : Handler) (rest : List Handler),
      allFound s e pre = true → x ∉ getD (removeSeq s e pre) e →
      offLoop s e (pre ++ x :: rest)
        = (removeSeq s e pre, some (ObsError.handlerNotFound e x)) := by
  intro pre
  induction pre with
  | nil =>
    intro s x rest _ hx
    rw [removeSeq] at hx ⊢
    simp only [List.foldl_nil] at hx ⊢
    simp [offLoop, hx]
  | cons y t ih =>
    intro s x rest hf hx
    rw [allFound, Bool.and_eq_true_iff] at hf
    have hy : y ∈ getD s e := of_decide_eq_true hf.1
    rw [List.cons_append, offLoop, if_pos hy]
    have hseq : removeSeq s e (y :: t) = removeSeq (removeAll s e y) e t := by
      rw [removeSeq, removeSeq, List.foldl_cons]
    rw [hseq] at hx ⊢
    exact ih (removeAll s e y) x rest hf.2 hx

/-- Claim C7: `off(e, h1, ..., hn)` processes the handlers one at a time in
the order given; when handler `x` (after prefix `pre`) is not found, the
call raises `HandlerNotFound e x` and the registry keeps the removals
already performed for `pre` — no rollback. -/
theorem c7_theorem (s : Events) (e : String) (pre rest : List Handler)
    (x : Handler) (he : e ≠ "") (hc : containsEvent s e = true)
    (hf : allFound s e pre = true)
    (hx : x ∉ getD (removeSeq s e pre) e) :
    off s (some e) (pre ++ x :: rest)
      = (removeSeq s e pre, some (ObsError.handlerNotFound e x)) := by
  have hne : (pre ++ x :: rest).isEmpty = false := by
    cases pre <;> rfl
  simp only [off, he, if_neg, hc, hne]
  rw [if_neg (by simp [he]), if_neg (by simp [hc]), if_neg (by simp [hne])]
  exact offLoop_partial e pre s x rest hf hx

/-- Witness for C7: removing `h1` succeeds, then `h3` is not found; the
raise keeps `h1`'s removal applied. -/
theorem c7_witness :
    (("e" : String) ≠ "")
    ∧ containsEvent [("e", [Handler.mk 1 false, Handler.mk 2 false])] "e"
        = true
    ∧ allFound [("e", [Handler.mk 1 false, Handler.mk 2 false])] "e"
        [Handler.mk 1 false] = true
    ∧ Handler.mk 3 false ∉
        getD (removeSeq [("e", [Handler.mk 1 false, Handler.mk 2 false])]
          "e" [Handler.mk 1 false]) "e"
    ∧ off [("e", [Handler.mk 1 false, Handler.mk 2 false])] (some "e")
        ([Handler.mk 1 false] ++ Handler.mk 3 false :: [])
      = (removeSeq [("e", [Handler.mk 1 false, Handler.mk 2 false])] "e"
          [Handler.mk 1 false],
        some (ObsError.handlerNotFound "e" (Handler.mk 3 false))) :=
  ⟨by decide, by decide, by decide, by decide,
    c7_theorem _ "e" _ _ _ (by decide) (by decide) (by decide) (by decide)⟩

/-!
## C1 — synchronous `trigger` and asynchronous-capable handlers
-/

theorem triggerLoop_noKw (args : List Value) :
    ∀ l : List Handler,
      (triggerLoop args [] l).2 = none
      ∧ ∀ x ∈ l, x.isAsync = true →
          Invocation.mk x [Value.tuple args] [] CallMode.scheduled
            ∈ (triggerLoop args [] l).1 := by
  intro l
  induction l with
  | nil => exact ⟨rfl, by simp⟩
  | cons c rest ih =>
    by_cases hc : c.isAsync
    · rw [triggerLoop, if_pos hc, if_neg (by simp)]
      refine ⟨ih.1, ?_⟩
      intro x hx hax
      rcases List.mem_cons.mp hx with h | h
      · subst h; exact List.mem_cons_self _ _
      · exact List.mem_cons_of_mem _ (ih.2 x h hax)
    · rw [triggerLoop, if_neg hc]
      refine ⟨ih.1, ?_⟩
      intro x hx hax
      rcases List.mem_cons.mp hx with h | h
      · subst h; rw [hax] at hc; exact absurd rfl hc
      · exact List.mem_cons_of_mem _ (ih.2 x h hax)

/-- Counterexample to claim C1: one asynchronous-capable handler registered
on `"e"`, triggered synchronously with the two positional arguments
`base 0, base 1`.  The handler is scheduled, but
`run_in_executor(None, callback, args)` calls it with ONE positional
argument — the whole `args` tuple — not with the two arguments each in its
own position. -/
theorem c1_counterexample :
    (trigger [("e", [Handler.mk 0 true])] "e"
        [Value.base 0, Value.base 1] []).1
      = [Invocation.mk (Handler.mk 0 true)
          [Value.tuple [Value.base 0, Value.base 1]] [] CallMode.scheduled]
    ∧ [Value.tuple [Value.base 0, Value.base 1]]
        ≠ [Value.base 0, Value.base 1] := by
  refine ⟨rfl, by simp⟩

/-- Claim C1 as amended: a synchronous `trigger` with positional arguments
`a1..an` (and no keyword arguments) returns `True` and schedules every
asynchronous-capable handler of the snapshot fire-and-forget, without
blocking; such a handler receives a single positional argument, namely the
tuple `(a1, ..., an)` (the arguments are repackaged, not forwarded
individually). -/
theorem c1_theorem (s : Events) (e : String) (args : List Value)
    (x : Handler) (hx : x ∈ getD s e) (ha : x.isAsync = true) :
    (trigger s e args []).2 = Except.ok true
    ∧ Invocation.mk x [Value.tuple args] [] CallMode.scheduled
        ∈ (trigger s e args []).1 := by
  have hne : (getD s e).isEmpty = false := by
    cases h : getD s e
    · rw [h] at hx; simp at hx
    · rfl
  have hl := triggerLoop_noKw args (getD s e)
  rcases hT : triggerLoop args [] (getD s e) with ⟨tr, err⟩
  rw [hT] at hl
  have herr : err = none := hl.1
  subst herr
  constructor
  · simp [trigger, hne, hT]
  · simpa [trigger, hne, hT] using hl.2 x hx ha

/-- Witness for C1's amended theorem at a concrete input. -/
theorem c1_witness :
    (Handler.mk 0 true ∈ getD [("e", [Handler.mk 0 true])] "e")
    ∧ (Handler.mk 0 true).isAsync = true
    ∧ ((trigger [("e", [Handler.mk 0 true])] "e" [Value.base 7] []).2
          = Except.ok true
      ∧ Invocation.mk (Handler.mk 0 true) [Value.tuple [Value.base 7]] []
          CallMode.scheduled
        ∈ (trigger [("e", [Handler.mk 0 true])] "e" [Value.base 7] []).1) :=
  ⟨by decide, rfl,
    c1_theorem [("e", [Handler.mk 0 true])] "e" [Value.base 7]
      (Handler.mk 0 true) (by decide) rfl⟩

/-!
## C4 — keyword arguments with an asynchronous handler in sync mode
-/

theorem triggerLoop_kw_err (args : List Value) (kw : List (String × Value))
    (hkw : 0 < kw.length) :
    ∀ (l : List Handler) (x : Handler), x ∈ l → x.isAsync = true →
      (triggerLoop args kw l).2 = some (ObsError.usageError
        "named args are not supported by asyncio in synchronous mode") := by
  intro l
  induction l with
  | nil => intro x hx; simp at hx
  | cons c rest ih =>
    intro x hx hax
    by_cases hc : c.isAsync
    · rw [triggerLoop, if_pos hc, if_pos hkw]
    · rw [triggerLoop, if_neg hc]
      rcases List.mem_cons.mp hx with h | h
      · subst h; rw [hax] at hc; exact absurd rfl hc
      · exact ih x h hax

/-- Claim C4: a synchronous `trigger` with at least one keyword argument,
whose snapshot contains an asynchronous-capable handler, fails during the
call itself with the usage error (`SyntaxError` in the code) — an error kind
distinct from both `EventNotFound` and `HandlerNotFound` — rather than
silently dropping the keyword arguments or deferring the failure. -/
theorem c4_theorem (s : Events) (e : String) (args : List Value)
    (kw : List (String × Value)) (x : Handler)
    (hx : x ∈ getD s e) (ha : x.isAsync = true) (hkw : kw ≠ []) :
    (trigger s e args kw).2 = Except.error (ObsError.usageError
      "named args are not supported by asyncio in synchronous mode")
    ∧ (∀ ev, ObsError.usageError
        "named args are not supported by asyncio in synchronous mode"
        ≠ ObsError.eventNotFound ev)
    ∧ (∀ ev h', ObsError.usageError
        "named args are not supported by asyncio in synchronous mode"
        ≠ ObsError.handlerNotFound ev h') := by
  have hne : (getD s e).isEmpty = false := by
    cases h : getD s e
    · rw [h] at hx; simp at hx
    · rfl
  have hlen : 0 < kw.length := List.length_pos.mpr hkw
  have hl := triggerLoop_kw_err args kw hlen (getD s e) x hx ha
  rcases hT : triggerLoop args kw (getD s e) with ⟨tr, err⟩
  rw [hT] at hl
  subst hl
  exact ⟨by simp [trigger, hne, hT], by intro ev; simp, by intro ev h'; simp⟩

/-- Witness for C4 at a concrete input. -/
theorem c4_witness :
    (Handler.mk 0 true ∈ getD [("e", [Handler.mk 0 true])] "e")
    ∧ ([(("k" : String), Value.base 1)] ≠ [])
    ∧ (trigger [("e", [Handler.mk 0 true])] "e" []
        [("k", Value.base 1)]).2 = Except.error (ObsError.usageError
          "named args are not supported by asyncio in synchronous mode") :=
  ⟨by decide, by simp,
    (c4_theorem [("e", [Handler.mk 0 true])] "e" [] [("k", Value.base 1)]
      (Handler.mk 0 true) (by decide) rfl (by simp)).1⟩

/-!
## C8 — `trigger_async` order, await-in-place, return value
-/

theorem triggerAsyncLoop_eq_map (args : List Value)
    (kw : List (String × Value)) :
    ∀ l : List Handler, triggerAsyncLoop args kw l
      = l.map (fun c => AInvocation.mk c c.isAsync args kw) := by
  intro l
  induction l with
  | nil => rfl
  | cons c rest ih => rw [triggerAsyncLoop, ih, List.map_cons]

/-- Claim C8: `trigger_async` dispatches the snapshot strictly in
registration order — the call trace lists exactly the snapshot's handlers in
order, each asynchronous-capable one awaited in place (`awaited = true`, so
it completes before the next entry starts) and each ordinary one invoked
synchronously in its registered position, all receiving `*args, **kw` — and
the call returns `True` iff the snapshot was non-empty. -/
theorem c8_theorem (s : Events) (e : String) (args : List Value)
    (kw : List (String × Value)) :
    (trigger_async s e args kw).1
      = (getD s e).map (fun c => AInvocation.mk c c.isAsync args kw)
    ∧ (trigger_async s e args kw).1.map AInvocation.handler = getD s e
    ∧ (trigger_async s e args kw).2 = !(getD s e).isEmpty := by
  by_cases h : (getD s e).isEmpty
  · have hnil : getD s e = [] := by
      cases hg : getD s e
      · rfl
      · rw [hg] at h; simp at h
    simp [trigger_async, h, hnil]
  · have hb : (getD s e).isEmpty = false := by
      cases hg : (getD s e).isEmpty
      · rfl
      · exact absurd hg h
    refine ⟨?_, ?_, ?_⟩
    · simp [trigger_async, hb, triggerAsyncLoop_eq_map]
    · simp [trigger_async, hb, triggerAsyncLoop_eq_map, List.map_map]
      exact List.map_id _
    · simp [trigger_async, hb]

/-!
## Interpreter step equations
-/

theorem run_nil (env : Handler → HKind) (f : Nat) (st : St) :
    run env f [] st = Res.mk st Outcome.ok f := by
  cases f <;> rfl

theorem run_zero (env : Handler → HKind) (w : WorkItem)
    (rest : List WorkItem) (st : St) :
    run env 0 (w :: rest) st = Res.mk st Outcome.fuelOut 0 := rfl

theorem run_onC (env : Handler → HKind) (f : Nat) (e : String)
    (hs : List Handler) (rest : List WorkItem) (st : St) :
    run env (f + 1) (WorkItem.cmd (Cmd.onC e hs) :: rest) st
      = run env f rest (St.mk (onEvent st.events e hs) st.log) := rfl

theorem run_offC_ok (env : Handler → HKind) (f : Nat) (ev : Option String)
    (hs : List Handler) (rest : List WorkItem) (st : St) (s' : Events)
    (h : off st.events ev hs = (s', none)) :
    run env (f + 1) (WorkItem.cmd (Cmd.offC ev hs) :: rest) st
      = run env f rest (St.mk s' st.log) := by
  rw [run, h]

theorem run_offC_err (env : Handler → HKind) (f : Nat) (ev : Option String)
    (hs : List Handler) (rest : List WorkItem) (st : St) (s' : Events)
    (er : ObsError) (h : off st.events ev hs = (s', some er)) :
    run env (f + 1) (WorkItem.cmd (Cmd.offC ev hs) :: rest) st
      = Res.mk (St.mk s' st.log) (Outcome.errored er) f := by
  rw [run, h]

theorem run_trigC (env : Handler → HKind) (f : Nat) (e : String)
    (rest : List WorkItem) (st : St) :
    run env (f + 1) (WorkItem.cmd (Cmd.trigC e) :: rest) st
      = run env f ((getD st.events e).map WorkItem.inv ++ rest) st := rfl

theorem run_inv_plain (env : Handler → HKind) (f : Nat) (g : Handler)
    (prog : List Cmd) (rest : List WorkItem) (st : St)
    (h : env g = HKind.plain prog) :
    run env (f + 1) (WorkItem.inv g :: rest) st
      = run env f (prog.map WorkItem.cmd ++ rest)
          (St.mk st.events (st.log ++ [g])) := by
  rw [run, h]

theorem run_inv_onceW_ok (env : Handler → HKind) (f : Nat) (g : Handler)
    (e : String) (ws : List Handler) (rest : List WorkItem) (st : St)
    (s' : Events) (henv : env g = HKind.onceW e ws)
    (hoff : off st.events (some e) [g] = (s', none)) :
    run env (f + 1) (WorkItem.inv g :: rest) st
      = run env f (ws.map WorkItem.inv ++ rest)
          (St.mk s' (st.log ++ [g])) := by
  rw [run, henv]
  dsimp only
  rw [hoff]

theorem run_inv_onceW_err (env : Handler → HKind) (f : Nat) (g : Handler)
    (e : String) (ws : List Handler) (rest : List WorkItem) (st : St)
    (s' : Events) (er : ObsError) (henv : env g = HKind.onceW e ws)
    (hoff : off st.events (some e) [g] = (s', some er)) :
    run env (f + 1) (WorkItem.inv g :: rest) st
      = Res.mk (St.mk s' (st.log ++ [g])) (Outcome.errored er) f := by
  rw [run, henv]
  dsimp only
  rw [hoff]

/-- Sequencing: running `xs ++ ys` runs `xs` (with all the work it pushes)
first; only its normal completion lets the `ys` suffix run, on the state
and the fuel `xs` left behind. -/
theorem run_append (env : Handler → HKind) :
    ∀ (f : Nat) (xs ys : List WorkItem) (st : St),
      run env f (xs ++ ys) st =
        if (run env f xs st).out = Outcome.ok
        then run env (run env f xs st).fuel ys (run env f xs st).st
        else run env f xs st := by
  intro f
  induction f with
  | zero =>
    intro xs ys st
    cases xs with
    | nil => simp [run_nil]
    | cons w t => simp [run_zero]
  | succ f ih =>
    intro xs ys st
    cases xs with
    | nil => simp [run_nil]
    | cons w t =>
      cases w with
      | cmd c =>
        cases c with
        | onC e hs =>
          rw [List.cons_append, run_onC, run_onC, ih]
        | offC ev hs =>
          rcases hoff : off st.events ev hs with ⟨s', err⟩
          cases err with
          | none =>
            rw [List.cons_append, run_offC_ok env f ev hs _ st s' hoff,
              run_offC_ok env f ev hs _ st s' hoff, ih]
          | some er =>
            rw [List.cons_append, run_offC_err env f ev hs _ st s' er hoff,
              run_offC_err env f ev hs _ st s' er hoff]
            simp
        | trigC e =>
          rw [List.cons_append, run_trigC, run_trigC, ← List.append_assoc,
            ih]
      | inv g =>
        cases henv : env g with
        | plain prog =>
          rw [List.cons_append, run_inv_plain env f g prog _ st henv,
            run_inv_plain env f g prog _ st henv, ← List.append_assoc, ih]
        | onceW e ws =>
          rcases hoff : off st.events (some e) [g] with ⟨s', err⟩
          cases err with
          | none =>
            rw [List.cons_append,
              run_inv_onceW_ok env f g e ws _ st s' henv hoff,
              run_inv_onceW_ok env f g e ws _ st s' henv hoff,
              ← List.append_assoc, ih]
          | some er =>
            rw [List.cons_append,
              run_inv_onceW_err env f g e ws _ st s' er henv hoff,
              run_inv_onceW_err env f g e ws _ st s' er henv hoff]
            simp

/-!
## C6 — snapshot semantics of a trigger call
-/

/-- Registry calls that are not nested triggers never touch the invocation
log, whatever they do to the registry. -/
theorem run_cmds_log (env : Handler → HKind) :
    ∀ (f : Nat) (cs : List Cmd) (st : St), trigFree cs = true →
      (run env f (cs.map WorkItem.cmd) st).st.log = st.log := by
  intro f
  induction f with
  | zero =>
    intro cs st _
    cases cs with
    | nil => rw [List.map_nil, run_nil]
    | cons c t => rw [List.map_cons, run_zero]
  | succ f ih =>
    intro cs st htf
    cases cs with
    | nil => rw [List.map_nil, run_nil]
    | cons c t =>
      rw [trigFree, List.all_cons, Bool.and_eq_true_iff] at htf
      cases c with
      | onC e hs =>
        rw [List.map_cons, run_onC]
        exact ih t _ htf.2
      | offC ev hs =>
        rcases hoff : off st.events ev hs with ⟨s', err⟩
        cases err with
        | none =>
          rw [List.map_cons, run_offC_ok env f ev hs _ st s' hoff]
          exact ih t _ htf.2
        | some er =>
          rw [List.map_cons, run_offC_err env f ev hs _ st s' er hoff]
      | trigC e =>
        rw [cmdTrigFree] at htf
        exact absurd htf.1 (by simp)

/-- Dispatching a fixed list of trigger-free plain handlers appends exactly
those handlers, in order, to the invocation log (when the run completes
normally) — whatever registry mutations their bodies perform. -/
theorem run_invs_log (env : Handler → HKind) :
    ∀ (l : List Handler) (f : Nat) (st : St),
      (∀ g ∈ l, plainTF env g = true) →
      (run env f (l.map WorkItem.inv) st).out = Outcome.ok →
      (run env f (l.map WorkItem.inv) st).st.log = st.log ++ l := by
  intro l
  induction l with
  | nil =>
    intro f st _ _
    rw [List.map_nil, run_nil, List.append_nil]
  | cons g t ih =>
    intro f st hall hok
    cases f with
    | zero =>
      rw [List.map_cons, run_zero] at hok
      exact absurd hok (by simp)
    | succ f =>
      have hg : plainTF env g = true := hall g (List.mem_cons_self g t)
      rw [plainTF] at hg
      cases henv : env g with
      | onceW e ws => rw [henv] at hg; exact absurd hg (by simp)
      | plain prog =>
        rw [henv] at hg
        rw [List.map_cons,
          run_inv_plain env f g prog _ st henv, run_append] at hok ⊢
        by_cases hout :
            (run env f (prog.map WorkItem.cmd)
              (St.mk st.events (st.log ++ [g]))).out = Outcome.ok
        · rw [if_pos hout] at hok ⊢
          have hlog := run_cmds_log env f prog
            (St.mk st.events (st.log ++ [g])) hg
          rw [ih _ _ (fun x hx => hall x (List.mem_cons_of_mem g hx)) hok,
            hlog]
          simp
        · rw [if_neg hout] at hok
          exact absurd hok hout

/-- A single trigger call on `e` whose snapshot consists of trigger-free
plain handlers invokes exactly the snapshot, in order. -/
theorem trigOnce_log (env : Handler → HKind) (f : Nat) (st : St)
    (e : String)
    (hall : ∀ g ∈ getD st.events e, plainTF env g = true)
    (hok : (trigOnce env f e st).out = Outcome.ok) :
    (trigOnce env f e st).st.log = st.log ++ getD st.events e := by
  cases f with
  | zero =>
    rw [trigOnce, run_zero] at hok
    exact absurd hok (by simp)
  | succ f =>
    rw [trigOnce, run_trigC, List.append_nil] at hok ⊢
    exact run_invs_log env (getD st.events e) f st hall hok

/-- Claim C6: a trigger call dispatches exactly the snapshot of the
event's handler list taken before iteration — handlers that register or
unregister handlers on the same event during their own execution never
change the current call's dispatch list — while the next trigger call on
the event dispatches the mutated list; and two consecutive trigger calls
compose exactly this way.  (Stated for snapshots of plain handlers without
nested triggers; the interpreter dispatches as `trigger_async` does, and as
`trigger` does for non-coroutine handlers.) -/
theorem c6_theorem (env : Handler → HKind) (f : Nat) (st : St) (e : String)
    (h1 : ∀ g ∈ getD st.events e, plainTF env g = true)
    (hok1 : (trigOnce env f e st).out = Outcome.ok)
    (h2 : ∀ g ∈ getD (trigOnce env f e st).st.events e, plainTF env g = true)
    (hok2 : (trigOnce env (trigOnce env f e st).fuel e
        (trigOnce env f e st).st).out = Outcome.ok) :
    (trigOnce env f e st).st.log = st.log ++ getD st.events e
    ∧ (trigOnce env (trigOnce env f e st).fuel e
        (trigOnce env f e st).st).st.log
      = st.log ++ getD st.events e ++ getD (trigOnce env f e st).st.events e
    ∧ run env f
        [WorkItem.cmd (Cmd.trigC e), WorkItem.cmd (Cmd.trigC e)] st
      = trigOnce env (trigOnce env f e st).fuel e (trigOnce env f e st).st
      := by
  refine ⟨trigOnce_log env f st e h1 hok1, ?_, ?_⟩
  · rw [trigOnce_log env _ _ e h2 hok2, trigOnce_log env f st e h1 hok1]
  · rw [show ([WorkItem.cmd (Cmd.trigC e), WorkItem.cmd (Cmd.trigC e)])
        = [WorkItem.cmd (Cmd.trigC e)] ++ [WorkItem.cmd (Cmd.trigC e)]
        from rfl, run_append]
    rw [trigOnce] at hok1
    rw [if_pos hok1]
    rfl

/-- Witness for C6: handler 2's body registers handler 3 on `"e"` while
`"e"` is being dispatched; the first call still invokes only handler 2,
the second call invokes both. -/
theorem c6_witness :
    ((∀ g ∈ getD stC6.events "e", plainTF envC6 g = true)
      ∧ (trigOnce envC6 10 "e" stC6).out = Outcome.ok)
    ∧ ((trigOnce envC6 10 "e" stC6).st.log
          = stC6.log ++ getD stC6.events "e"
      ∧ (trigOnce envC6 (trigOnce envC6 10 "e" stC6).fuel "e"
            (trigOnce envC6 10 "e" stC6).st).st.log
          = stC6.log ++ getD stC6.events "e"
            ++ getD (trigOnce envC6 10 "e" stC6).st.events "e"
      ∧ run envC6 10
          [WorkItem.cmd (Cmd.trigC "e"), WorkItem.cmd (Cmd.trigC "e")] stC6
        = trigOnce envC6 (trigOnce envC6 10 "e" stC6).fuel "e"
            (trigOnce envC6 10 "e" stC6).st) :=
  ⟨⟨by decide, by decide⟩,
    c6_theorem envC6 10 stC6 "e" (by decide) (by decide) (by decide)
      (by decide)⟩

/-!
## C5 — counting lemmas for the once wrapper
-/

theorem hcount_append (x : Handler) (a b : List Handler) :
    hcount x (a ++ b) = hcount x a + hcount x b := by
  induction a with
  | nil => simp [hcount]
  | cons y t ih => rw [List.cons_append, hcount, hcount, ih]; omega

theorem hcount_eq_zero {x : Handler} {l : List Handler} (h : x ∉ l) :
    hcount x l = 0 := by
  induction l with
  | nil => rfl
  | cons y t ih =>
    rw [hcount]
    rw [if_neg (by intro hyx; subst hyx; exact h (List.mem_cons_self _ t))]
    have := ih (fun hx => h (List.mem_cons_of_mem y hx))
    omega

theorem hcount_pos {x : Handler} {l : List Handler} (h : x ∈ l) :
    1 ≤ hcount x l := by
  induction l with
  | nil => simp at h
  | cons y t ih =>
    rcases List.mem_cons.mp h with hh | hh
    · rw [hcount, if_pos hh.symm]; omega
    · rw [hcount]; have := ih hh; omega

theorem hcount_filter_le (x : Handler) (q : Handler → Bool)
    (l : List Handler) : hcount x (l.filter q) ≤ hcount x l := by
  induction l with
  | nil => exact Nat.le_refl _
  | cons y t ih =>
    rw [List.filter_cons]
    by_cases hq : q y = true
    · rw [if_pos hq, hcount, hcount]; omega
    · rw [if_neg hq, hcount]; omega

theorem hcount_filter_self (x : Handler) (l : List Handler) :
    hcount x (l.filter (fun y => decide (y ≠ x))) = 0 := by
  induction l with
  | nil => rfl
  | cons y t ih =>
    rw [List.filter_cons]
    by_cases hy : y = x
    · rw [if_neg (by simp [hy]), ih]
    · rw [if_pos (by simp [hy]), hcount, if_neg hy, ih]

theorem hcount_getD_le_occ (s : Events) (e : String) (x : Handler) :
    hcount x (getD s e) ≤ occ s x := by
  induction s with
  | nil => exact Nat.le_refl _
  | cons p t ih =>
    rw [getD, occ]
    by_cases hp : p.1 = e
    · rw [if_pos hp]; omega
    · rw [if_neg hp]; omega

theorem occ_setEvent (s : Events) (e : String) (l : List Handler)
    (x : Handler) :
    occ (setEvent s e l) x + hcount x (getD s e) = occ s x + hcount x l := by
  induction s with
  | nil => simp [setEvent, getD, occ, hcount]
  | cons p t ih =>
    by_cases hp : p.1 = e
    · rw [setEvent, if_pos hp, getD, if_pos hp,
        show occ ((e, l) :: t) x = hcount x l + occ t x from rfl,
        show occ (p :: t) x = hcount x p.2 + occ t x from rfl]
      omega
    · rw [setEvent, if_neg hp, getD, if_neg hp,
        show occ (p :: setEvent t e l) x
          = hcount x p.2 + occ (setEvent t e l) x from rfl,
        show occ (p :: t) x = hcount x p.2 + occ t x from rfl]
      omega

theorem occ_onEvent (s : Events) (e : String) (hs : List Handler)
    (x : Handler) : occ (onEvent s e hs) x = occ s x + hcount x hs := by
  by_cases hemp : hs.isEmpty
  · have hnil : hs = [] := by
      cases hs
      · rfl
      · simp at hemp
    subst hnil
    rw [onEvent]
    simp [hcount]
  · rw [onEvent, if_neg hemp]
    have h5 := occ_setEvent s e (getD s e ++ hs) x
    rw [hcount_append] at h5
    omega

theorem occ_removeAll_le (s : Events) (e : String) (y x : Handler) :
    occ (removeAll s e y) x ≤ occ s x := by
  have h5 := occ_setEvent s e
    ((getD s e).filter (fun z => decide (z ≠ y))) x
  have hle := hcount_filter_le x (fun z => decide (z ≠ y)) (getD s e)
  rw [removeAll]
  omega

theorem occ_removeAll_self (s : Events) (e : String) (x : Handler) :
    occ (removeAll s e x) x + hcount x (getD s e) = occ s x := by
  have h5 := occ_setEvent s e
    ((getD s e).filter (fun z => decide (z ≠ x))) x
  rw [hcount_filter_self] at h5
  rw [removeAll]
  omega

theorem occ_popEvent_le (s : Events) (e : String) (x : Handler) :
    occ (popEvent s e) x ≤ occ s x := by
  induction s with
  | nil => exact Nat.le_refl _
  | cons p t ih =>
    rw [popEvent, List.filter_cons] at *
    by_cases hp : (decide (p.1 ≠ e)) = true
    · rw [if_pos hp, occ, occ]; omega
    · rw [if_neg hp, occ]; omega

theorem occ_offLoop_le (e : String) (x : Handler) :
    ∀ (hs : List Handler) (s : Events),
      occ ((offLoop s e hs).1) x ≤ occ s x := by
  intro hs
  induction hs with
  | nil => intro s; exact Nat.le_refl _
  | cons y t ih =>
    intro s
    rw [offLoop]
    by_cases hy : y ∈ getD s e
    · rw [if_pos hy]
      exact Nat.le_trans (ih (removeAll s e y)) (occ_removeAll_le s e y x)
    · rw [if_neg hy]

theorem occ_off_le (s : Events) (ev : Option String) (hs : List Handler)
    (x : Handler) : occ ((off s ev hs).1) x ≤ occ s x := by
  match ev with
  | none => exact Nat.zero_le _
  | some e =>
    by_cases he : e = ""
    · rw [off, if_pos he]; exact Nat.zero_le _
    · by_cases hc : containsEvent s e = false
      · rw [off, if_neg he, if_pos hc]
      · by_cases hemp : hs.isEmpty
        · rw [off, if_neg he, if_neg hc, if_pos hemp]
          exact occ_popEvent_le s e x
        · rw [off, if_neg he, if_neg hc, if_neg hemp]
          exact occ_offLoop_le e x hs s

theorem off_single_ok {s : Events} {e : String} {x : Handler} {s' : Events}
    (he : e ≠ "") (hok : off s (some e) [x] = (s', none)) :
    x ∈ getD s e ∧ s' = removeAll s e x := by
  rw [off, if_neg he] at hok
  by_cases hc : containsEvent s e = false
  · rw [if_pos hc] at hok
    exact absurd (congrArg Prod.snd hok) (by simp)
  · rw [if_neg hc, if_neg (by simp : ([x] : List Handler).isEmpty ≠ true),
      offLoop] at hok
    by_cases hx : x ∈ getD s e
    · rw [if_pos hx, offLoop] at hok
      exact ⟨hx, (congrArg Prod.fst hok).symm⟩
    · rw [if_neg hx] at hok
      exact absurd (congrArg Prod.snd hok) (by simp)

theorem invCount_append (x : Handler) (a b : List WorkItem) :
    invCount x (a ++ b) = invCount x a + invCount x b := by
  induction a with
  | nil => simp [invCount]
  | cons i t ih =>
    cases i with
    | cmd c => rw [List.cons_append, invCount, invCount, ih]
    | inv g => rw [List.cons_append, invCount, invCount, ih]; omega

theorem invCount_map_cmd (x : Handler) (cs : List Cmd) :
    invCount x (cs.map WorkItem.cmd) = 0 := by
  induction cs with
  | nil => rfl
  | cons c t ih => rw [List.map_cons, invCount, ih]

theorem invCount_map_inv (x : Handler) (l : List Handler) :
    invCount x (l.map WorkItem.inv) = hcount x l := by
  induction l with
  | nil => rfl
  | cons g t ih => rw [List.map_cons, invCount, hcount, ih]

theorem wsSafe_cons (h w : Handler) (i : WorkItem) (t : List WorkItem) :
    wsSafe h w (i :: t)
      = ((match i with
          | WorkItem.cmd c => cmdAvoids h w c
          | WorkItem.inv _ => true) && wsSafe h w t) := by
  rw [wsSafe, List.all_cons, wsSafe]

theorem wsSafe_append (h w : Handler) (a b : List WorkItem) :
    wsSafe h w (a ++ b) = (wsSafe h w a && wsSafe h w b) := by
  rw [wsSafe, List.all_append, wsSafe, wsSafe]

theorem wsSafe_map_inv (h w : Handler) (l : List Handler) :
    wsSafe h w (l.map WorkItem.inv) = true := by
  induction l with
  | nil => rfl
  | cons g t ih => rw [List.map_cons, wsSafe_cons, ih]; rfl

theorem wsSafe_map_cmd {h w : Handler} {cs : List Cmd}
    (hcs : cs.all (cmdAvoids h w) = true) :
    wsSafe h w (cs.map WorkItem.cmd) = true := by
  induction cs with
  | nil => rfl
  | cons c t ih =>
    rw [List.all_cons, Bool.and_eq_true_iff] at hcs
    rw [List.map_cons, wsSafe_cons, ih hcs.2]
    dsimp only
    rw [hcs.1]
    rfl

theorem invCount_inv_cons (x g : Handler) (t : List WorkItem) :
    invCount x (WorkItem.inv g :: t) = hcount x [g] + invCount x t := by
  rw [invCount, hcount, hcount]
  omega

theorem runTop_nil (env : Handler → HKind) (fuel : Nat) (st : St) :
    runTop env fuel [] st = st := rfl

theorem runTop_cons (env : Handler → HKind) (fuel : Nat) (c : Cmd)
    (cs : List Cmd) (st : St) :
    runTop env fuel (c :: cs) st
      = runTop env fuel cs ((run env fuel [WorkItem.cmd c] st).st) := rfl

/-- Main invariant of the once wrapper `w` wrapping `h` (on event `e ≠ ""`,
with no handler re-registering `h` or `w`): a run keeps `h` absent from the
registry, and the invocations of `h` already logged, the pending invocation
items of `h`, and the registry occurrences of `w` together never exceed one.
The wrapper's self-removal (`self.off(event, _wrapper)` before calling the
wrapped handlers) is what trades the occurrence of `w` for the single
pending invocation of `h`. -/
theorem runOnceBound (env : Handler → HKind) (h w : Handler) (e : String)
    (hhw : h ≠ w) (he : e ≠ "") (hw : env w = HKind.onceW e [h])
    (hsafe : envSafe env h w) :
    ∀ (fuel : Nat) (ws : List WorkItem) (st : St),
      occ st.events h = 0 → wsSafe h w ws = true →
      hcount h st.log + invCount h ws + occ st.events w ≤ 1 →
      occ (run env fuel ws st).st.events h = 0
      ∧ hcount h (run env fuel ws st).st.log
          + occ (run env fuel ws st).st.events w ≤ 1 := by
  intro fuel
  induction fuel with
  | zero =>
    intro ws st h0 hws hB
    cases ws with
    | nil =>
      rw [run_nil]
      refine ⟨h0, ?_⟩
      show hcount h st.log + occ st.events w ≤ 1
      omega
    | cons i t =>
      rw [run_zero]
      refine ⟨h0, ?_⟩
      show hcount h st.log + occ st.events w ≤ 1
      omega
  | succ f ih =>
    intro ws st h0 hws hB
    cases ws with
    | nil =>
      rw [run_nil]
      refine ⟨h0, ?_⟩
      show hcount h st.log + occ st.events w ≤ 1
      omega
    | cons i t =>
      rw [wsSafe_cons, Bool.and_eq_true_iff] at hws
      cases i with
      | cmd c =>
        rw [invCount] at hB
        cases c with
        | onC e' hs' =>
          rw [run_onC]
          have havoid : cmdAvoids h w (Cmd.onC e' hs') = true := hws.1
          rw [cmdAvoids] at havoid
          have hmemh : h ∉ hs' := by
            intro hm; simp [hm] at havoid
          have hmemw : w ∉ hs' := by
            intro hm; simp [hm] at havoid
          refine ih t (St.mk (onEvent st.events e' hs') st.log) ?_ hws.2 ?_
          · show occ (onEvent st.events e' hs') h = 0
            rw [occ_onEvent, hcount_eq_zero hmemh, h0]
          · show hcount h st.log + invCount h t
              + occ (onEvent st.events e' hs') w ≤ 1
            rw [occ_onEvent, hcount_eq_zero hmemw]
            omega
        | offC ev hs' =>
          rcases hoff : off st.events ev hs' with ⟨s', err⟩
          have hle_h : occ s' h ≤ occ st.events h := by
            have hx := occ_off_le st.events ev hs' h
            rw [hoff] at hx; exact hx
          have hle_w : occ s' w ≤ occ st.events w := by
            have hx := occ_off_le st.events ev hs' w
            rw [hoff] at hx; exact hx
          cases err with
          | none =>
            rw [run_offC_ok env f ev hs' t st s' hoff]
            refine ih t (St.mk s' st.log) ?_ hws.2 ?_
            · show occ s' h = 0; omega
            · show hcount h st.log + invCount h t + occ s' w ≤ 1; omega
          | some er =>
            rw [run_offC_err env f ev hs' t st s' er hoff]
            refine ⟨?_, ?_⟩
            · show occ s' h = 0; omega
            · show hcount h st.log + occ s' w ≤ 1; omega
        | trigC e' =>
          rw [run_trigC]
          have hcnt : hcount h (getD st.events e') = 0 := by
            have hx := hcount_getD_le_occ st.events e' h
            omega
          refine ih _ st h0 ?_ ?_
          · rw [wsSafe_append, wsSafe_map_inv, hws.2]; rfl
          · rw [invCount_append, invCount_map_inv, hcnt]
            omega
      | inv g =>
        rw [invCount_inv_cons] at hB
        cases henv : env g with
        | plain prog =>
          rw [run_inv_plain env f g prog t st henv]
          have hks := hsafe g
          rw [henv, kindSafe] at hks
          refine ih _ (St.mk st.events (st.log ++ [g])) h0 ?_ ?_
          · rw [wsSafe_append, wsSafe_map_cmd hks, hws.2]; rfl
          · show hcount h (st.log ++ [g])
              + invCount h (prog.map WorkItem.cmd ++ t) + occ st.events w ≤ 1
            rw [hcount_append, invCount_append, invCount_map_cmd]
            omega
        | onceW e'' ws'' =>
          by_cases hgw : g = w
          · subst hgw
            rw [hw] at henv
            injection henv with h1 h2
            subst h1
            subst h2
            have hnw : h ∉ [g] := by simp [hhw]
            rw [hcount_eq_zero hnw] at hB
            rcases hoff : off st.events (some e) [g] with ⟨s', err⟩
            cases err with
            | none =>
              obtain ⟨hwmem, hs'⟩ := off_single_ok he hoff
              rw [run_inv_onceW_ok env f g e [h] t st s' hw hoff]
              have hocc_w : occ s' g + hcount g (getD st.events e)
                  = occ st.events g := by
                rw [hs']; exact occ_removeAll_self st.events e g
              have hw1 : 1 ≤ hcount g (getD st.events e) := hcount_pos hwmem
              have hocc_h : occ s' h ≤ occ st.events h := by
                rw [hs']; exact occ_removeAll_le st.events e g h
              refine ih _ (St.mk s' (st.log ++ [g])) ?_ ?_ ?_
              · show occ s' h = 0; omega
              · rw [wsSafe_append, wsSafe_map_inv, hws.2]; rfl
              · show hcount h (st.log ++ [g])
                  + invCount h ([h].map WorkItem.inv ++ t) + occ s' g ≤ 1
                rw [hcount_append, invCount_append, invCount_map_inv,
                  hcount_eq_zero hnw,
                  show hcount h [h] = 1 from by simp [hcount]]
                omega
            | some er =>
              rw [run_inv_onceW_err env f g e [h] t st s' er hw hoff]
              have hle_h : occ s' h ≤ occ st.events h := by
                have hx := occ_off_le st.events (some e) [g] h
                rw [hoff] at hx; exact hx
              have hle_w : occ s' g ≤ occ st.events g := by
                have hx := occ_off_le st.events (some e) [g] g
                rw [hoff] at hx; exact hx
              refine ⟨?_, ?_⟩
              · show occ s' h = 0; omega
              · show hcount h (st.log ++ [g]) + occ s' g ≤ 1
                rw [hcount_append, hcount_eq_zero hnw]
                omega
          · have hks := hsafe g
            rw [henv, kindSafe] at hks
            have hnot : h ∉ ws'' := by
              intro hmem
              simp [hgw, hmem] at hks
            rcases hoff : off st.events (some e'') [g] with ⟨s', err⟩
            have hle_h : occ s' h ≤ occ st.events h := by
              have hx := occ_off_le st.events (some e'') [g] h
              rw [hoff] at hx; exact hx
            have hle_w : occ s' w ≤ occ st.events w := by
              have hx := occ_off_le st.events (some e'') [g] w
              rw [hoff] at hx; exact hx
            cases err with
            | none =>
              rw [run_inv_onceW_ok env f g e'' ws'' t st s' henv hoff]
              refine ih _ (St.mk s' (st.log ++ [g])) ?_ ?_ ?_
              · show occ s' h = 0; omega
              · rw [wsSafe_append, wsSafe_map_inv, hws.2]; rfl
              · show hcount h (st.log ++ [g])
                  + invCount h (ws''.map WorkItem.inv ++ t) + occ s' w ≤ 1
                rw [hcount_append, invCount_append, invCount_map_inv,
                  hcount_eq_zero hnot]
                omega
            | some er =>
              rw [run_inv_onceW_err env f g e'' ws'' t st s' er henv hoff]
              refine ⟨?_, ?_⟩
              · show occ s' h = 0; omega
              · show hcount h (st.log ++ [g]) + occ s' w ≤ 1
                rw [hcount_append]
                omega

/-- Lifting the once-wrapper invariant over a host-level sequence of
separate trigger calls. -/
theorem runTop_bound (env : Handler → HKind) (h w : Handler) (e : String)
    (hhw : h ≠ w) (he : e ≠ "") (hw : env w = HKind.onceW e [h])
    (hsafe : envSafe env h w) (fuel : Nat) :
    ∀ (cmds : List Cmd) (st : St),
      (∀ c ∈ cmds, cmdIsTrig c = true) →
      occ st.events h = 0 →
      hcount h st.log + occ st.events w ≤ 1 →
      occ (runTop env fuel cmds st).events h = 0
      ∧ hcount h (runTop env fuel cmds st).log
          + occ (runTop env fuel cmds st).events w ≤ 1 := by
  intro cmds
  induction cmds with
  | nil =>
    intro st _ h0 hB
    rw [runTop_nil]
    exact ⟨h0, hB⟩
  | cons c cs ih =>
    intro st htrig h0 hB
    rw [runTop_cons]
    have hct := htrig c (List.mem_cons_self c cs)
    have hsafe_ws : wsSafe h w [WorkItem.cmd c] = true := by
      cases c with
      | trigC e' => rfl
      | onC e' hs' => exact Bool.noConfusion (show false = true from hct)
      | offC ev hs' => exact Bool.noConfusion (show false = true from hct)
    have hinv : invCount h [WorkItem.cmd c] = 0 := by
      rw [invCount, invCount]
    have hb := runOnceBound env h w e hhw he hw hsafe fuel
      [WorkItem.cmd c] st h0 hsafe_ws (by omega)
    exact ih _ (fun c' hc' => htrig c' (List.mem_cons_of_mem c hc'))
      hb.1 hb.2

/-- The environment of the canonical C5 scenario is safe for `hC5`/`wC5`. -/
theorem envC5_safe : envSafe envC5 hC5 wC5 := by
  intro g
  by_cases hg : g = wC5
  · subst hg
    simp [envC5, kindSafe]
  · simp [envC5, hg, kindSafe]

/-- The reentrant C5 environment is safe for `hC5`/`wC5` as well: the
wrapped handler's body only re-triggers, it never re-registers. -/
theorem envC5r_safe : envSafe envC5r hC5 wC5 := by
  intro g
  by_cases hg : g = wC5
  · subst hg
    simp [envC5r, kindSafe]
  · by_cases hg' : g = hC5
    · subst hg'
      simp [envC5r, hC5, wC5, kindSafe, trigFree, cmdAvoids]
    · simp [envC5r, hg, hg', kindSafe]

/-- Claim C5: a handler `h` wrapped by a `once` registration is invoked at
most once per registration, across any sequence of subsequent trigger
calls, whatever the (non-re-registering) handlers do — because the wrapper
removes itself from the event before invoking `h`.  In particular, after a
single `once("e", h)` on a fresh registry, triggering `"e"` twice invokes
`h` exactly once; and reentrant re-triggering of `"e"` from inside `h`
itself (third conjunct) still yields exactly one invocation.  (General
statement for a non-empty event name; `occ s w ≤ 1` is the single
registration of the wrapper, `occ s h = 0` says `h` is only reachable
through its wrapper.) -/
theorem c5_theorem :
    (∀ (env : Handler → HKind) (h w : Handler) (e : String) (fuel : Nat)
        (cmds : List Cmd) (s : Events),
      h ≠ w → e ≠ "" → env w = HKind.onceW e [h] → envSafe env h w →
      (∀ c ∈ cmds, cmdIsTrig c = true) →
      occ s h = 0 → occ s w ≤ 1 →
      hcount h (runTop env fuel cmds (St.mk s [])).log ≤ 1)
    ∧ hcount hC5 (runTop envC5 10 [Cmd.trigC "e", Cmd.trigC "e"]
        (St.mk (once [] "e" wC5) [])).log = 1
    ∧ hcount hC5 (runTop envC5r 10 [Cmd.trigC "e"]
        (St.mk (once [] "e" wC5) [])).log = 1 := by
  refine ⟨?_, by decide, by decide⟩
  intro env h w e fuel cmds s hhw he hw hsafe htrig h0 hw1
  have hstart : hcount h (St.mk s []).log + occ (St.mk s []).events w ≤ 1 := by
    show hcount h [] + occ s w ≤ 1
    rw [show hcount h ([] : List Handler) = 0 from rfl]
    omega
  obtain ⟨-, h2⟩ := runTop_bound env h w e hhw he hw hsafe fuel cmds
    (St.mk s []) htrig h0 hstart
  omega

/-- Witness for C5's general statement at the canonical concrete scenario. -/
theorem c5_witness :
    (hC5 ≠ wC5 ∧ ("e" : String) ≠ ""
      ∧ envC5 wC5 = HKind.onceW "e" [hC5]
      ∧ envSafe envC5 hC5 wC5
      ∧ occ [("e", [wC5])] hC5 = 0 ∧ occ [("e", [wC5])] wC5 ≤ 1)
    ∧ hcount hC5 (runTop envC5 7 [Cmd.trigC "e", Cmd.trigC "e"]
        (St.mk [("e", [wC5])] [])).log ≤ 1 :=
  ⟨⟨by decide, by decide, by decide, envC5_safe, by decide, by decide⟩,
    c5_theorem.1 envC5 hC5 wC5 "e" 7 [Cmd.trigC "e", Cmd.trigC "e"]
      [("e", [wC5])] (by decide) (by decide) (by decide) envC5_safe
      (by decide) (by decide) (by decide)⟩

end Observable
